import Mathlib

set_option linter.unusedVariables false

/-!
Shallow embedding of `envtemplater` (`main.go`).

Conventions of the embedding:
* Go `map[string]string` is modelled as an association list with unique keys,
  with `mapGet` (lookup) and `mapInsert` (assignment, overwrite-on-match).
* `strings.Split` / `strings.SplitN(_, _, 2)` are modelled character-wise with
  Go's exact semantics, including the empty-separator "explode into UTF-8
  runes" behaviour (`Char` plays the role of a rune).
* A Go runtime panic (index out of range) is modelled as an explicit
  `Outcome.panic` value, distinct from a returned (reported) error.
* Filesystem paths are modelled as lists of path components; `filepath.Join`
  of clean relative paths is list append, and the string form produced by the
  Go code joins components with the separator `"/"`.
-/

/-- Go map lookup `v, ok := m[k]` over the association-list model of a map. -/
def mapGet {κ α : Type} [DecidableEq κ] : List (κ × α) → κ → Option α
| [], _ => none
| p :: rest, k => if p.1 = k then some p.2 else mapGet rest k

/-- Go map assignment `m[k] = v`: replaces the binding of `k` if present, else appends. -/
def mapInsert {κ α : Type} [DecidableEq κ] : List (κ × α) → κ → α → List (κ × α)
| [], k, v => [(k, v)]
| p :: rest, k, v => if p.1 = k then (k, v) :: rest else p :: mapInsert rest k v

/-- Value bound to `k` by the last pair of `ps` whose key is `k` (later pairs win). -/
def lookupLast {κ α : Type} [DecidableEq κ] : List (κ × α) → κ → Option α
| [], _ => none
| p :: rest, k =>
  match lookupLast rest k with
  | some v => some v
  | none => if p.1 = k then some p.2 else none

/-- Option fallback: first operand if it is `some`, else the second. -/
def optOr {α : Type} : Option α → Option α → Option α
| some x, _ => some x
| none, b => b

/-- Split at the first occurrence of `sep` (Go's `strings.Index` scan): the part
strictly before the first occurrence and the part strictly after it. -/
def firstSplit (sep : List Char) : List Char → Option (List Char × List Char)
| [] => none
| c :: s =>
  if sep <+: (c :: s) then some ([], (c :: s).drop sep.length)
  else
    match firstSplit sep s with
    | none => none
    | some (k, r) => some (c :: k, r)

/-- Iterated first-occurrence splitting; `fuel` only bounds recursion and is
always supplied large enough to be irrelevant. -/
def goSplitLoop (sep : List Char) : Nat → List Char → List (List Char)
| 0, s => [s]
| fuel + 1, s =>
  match firstSplit sep s with
  | none => [s]
  | some (k, r) => k :: goSplitLoop sep fuel r

/-- Go `strings.Split(s, sep)`: for empty `sep` it explodes into runes, else it
splits at every occurrence of `sep`. -/
def goSplitChars (s sep : List Char) : List (List Char) :=
  if sep = [] then s.map (fun c => [c])
  else goSplitLoop sep (s.length + 1) s

/-- Go `explode(s, 2)`: at most two pieces, the first rune and the remainder. -/
def explodeN2 : List Char → List (List Char)
| [] => []
| [c] => [[c]]
| c :: s => [[c], s]

/-- Go `strings.SplitN(s, sep, 2)`. -/
def goSplitN2Chars (s sep : List Char) : List (List Char) :=
  if sep = [] then explodeN2 s
  else
    match firstSplit sep s with
    | none => [s]
    | some (k, r) => [k, r]

/-- Go `strings.Split` on `String`. -/
def goSplit (s sep : String) : List String :=
  (goSplitChars s.data sep.data).map String.mk

/-- Go `strings.SplitN(s, sep, 2)` on `String`. -/
def goSplitN2 (s sep : String) : List String :=
  (goSplitN2Chars s.data sep.data).map String.mk

/-- Go `strings.Trim(s, "\n")`: removes leading and trailing newline characters. -/
def goTrimNL (s : String) : String :=
  String.mk (((s.data.dropWhile (fun c => c = '\n')).reverse.dropWhile (fun c => c = '\n')).reverse)

/-- The one error value the template context constructs (`fmt.Errorf` for a
missing variable in `Env`). -/
inductive CtxErr where
| missingVariable (name : String)
deriving DecidableEq

/-- Result of a Go call that returns `(value, error)` and can also panic:
`ok` is a nil-error return, `err` a reported (returned) error value, and
`panic` an unguarded runtime panic such as an index out of range. -/
inductive Outcome (α : Type) where
| ok (a : α)
| err (e : CtxErr)
| panic
deriving DecidableEq

/-- Whether the call reported a failure through its error return value. -/
def Outcome.isErr {α : Type} : Outcome α → Bool
| .err _ => true
| _ => false

/-- The environment snapshot held by the template context. -/
structure TemplateContext where
  envs : List (String × String)
deriving DecidableEq

/-- One `os.Environ()` entry processed as in `NewTemplateContext`:
`substrs := strings.SplitN(str, "=", 2)` then key `substrs[0]` and value
`strings.Trim(substrs[1], "\n")`; `none` models the index-out-of-range panic
on an entry with no `=`. -/
def parseEnvEntry (str : String) : Option (String × String) :=
  match goSplitN2 str "=" with
  | [k, v] => some (k, goTrimNL v)
  | _ => none

/-- The loop of `NewTemplateContext` over the environment entries. -/
def buildEnvs : List String → List (String × String) → Option (List (String × String))
| [], m => some m
| str :: rest, m =>
  match parseEnvEntry str with
  | none => none
  | some kv => buildEnvs rest (mapInsert m kv.1 kv.2)

/-- Model of `NewTemplateContext`, as a function of the process environment entry list. -/
def NewTemplateContext (environ : List String) : Option TemplateContext :=
  (buildEnvs environ []).map TemplateContext.mk

/-- Method `Env`: required environment variable. -/
def TemplateContext.Env (tx : TemplateContext) (name : String) : Outcome String :=
  match mapGet tx.envs name with
  | none => .err (.missingVariable name)
  | some v => .ok v

/-- Method `List` from the source (renamed `EnvList`: the name `List` is taken in Lean):
fetch `Env(name)` and split on every occurrence of `delimiter`. -/
def TemplateContext.EnvList (tx : TemplateContext) (name delimiter : String) : Outcome (List String) :=
  match tx.Env name with
  | .err e => .err e
  | .panic => .panic
  | .ok env => .ok (goSplit env delimiter)

/-- The loop body of `TemplateContext.Dict`:
`v := strings.SplitN(substr, kvDelimeter, 2); dict[v[0]] = v[1]` — when the
split yields fewer than two parts, `v[1]` is an unguarded out-of-bounds index,
i.e. a runtime panic. -/
def dictInsertItems (kvDelimeter : String) : List String → List (String × String) → Outcome (List (String × String))
| [], dict => .ok dict
| substr :: rest, dict =>
  match goSplitN2 substr kvDelimeter with
  | k :: v :: _ => dictInsertItems kvDelimeter rest (mapInsert dict k v)
  | _ => .panic

/-- Method `Dict`. -/
def TemplateContext.Dict (tx : TemplateContext) (name itemDelimeter kvDelimeter : String) : Outcome (List (String × String)) :=
  match tx.Env name with
  | .err e => .err e
  | .panic => .panic
  | .ok env => dictInsertItems kvDelimeter (goSplit env itemDelimeter) []

/-- Method `Exist`. -/
def TemplateContext.Exist (tx : TemplateContext) (name : String) : Bool :=
  (mapGet tx.envs name).isSome

/-- Method `NotExist`. -/
def TemplateContext.NotExist (tx : TemplateContext) (name : String) : Bool :=
  !(mapGet tx.envs name).isSome

/-- The command-line configuration (`Flags`). -/
structure Flags where
  IF : String
  OF : String
  ID : String
  OD : String
deriving DecidableEq

/-- The validation `switch` at the end of `NewFlags`, returning the error
message it produces, if any. -/
def validateFlags (flags : Flags) : Option String :=
  if flags.IF = "" ∧ flags.ID = "" then some "Required input file or input dir"
  else if flags.IF ≠ "" ∧ flags.OF = "" then some "Required output file when using input file"
  else if flags.ID ≠ "" ∧ flags.OD = "" then some "Required output dir when using input dir"
  else none

/- A readable directory tree: what the recursive `os.ReadDir` traversals see.
`FsEntries` is the entry list of one directory, in the order `os.ReadDir`
returns it; a `file` entry is any non-directory entry. -/
mutual
inductive FsTree where
| file : FsTree
| dir : FsEntries → FsTree

inductive FsEntries where
| nil : FsEntries
| cons : String → FsTree → FsEntries → FsEntries
end

/-- Names of the entries of one directory listing. -/
def entNames : FsEntries → List String
| .nil => []
| .cons n _ rest => n :: entNames rest

/- `recursiveGetDirs`, paths as component lists (`filepath.Join` = append). -/
mutual
def recursiveGetDirsC : FsTree → List (List String)
| .file => []
| .dir es => entDirsC es

def entDirsC : FsEntries → List (List String)
| .nil => []
| .cons _ .file rest => entDirsC rest
| .cons n (.dir es) rest => ([n] :: (entDirsC es).map (fun p => n :: p)) ++ entDirsC rest
end

/- `recursiveGetDirs` exactly as in the source: for each entry in listing
order, skip non-directories; for a directory, emit its name and then each
recursively found subdirectory joined below the name. -/
mutual
def recursiveGetDirs : FsTree → List String
| .file => []
| .dir es => entDirs es

def entDirs : FsEntries → List String
| .nil => []
| .cons _ .file rest => entDirs rest
| .cons n (.dir es) rest => (n :: (entDirs es).map (fun sub => n ++ "/" ++ sub)) ++ entDirs rest
end

/- `recursiveGetFiles`, paths as component lists. -/
mutual
def recursiveGetFilesC : FsTree → List (List String)
| .file => []
| .dir es => entFilesC es

def entFilesC : FsEntries → List (List String)
| .nil => []
| .cons n .file rest => [n] :: entFilesC rest
| .cons n (.dir es) rest => (entFilesC es).map (fun p => n :: p) ++ entFilesC rest
end

/- Well-formedness of a real directory tree: within one directory the entry
names are distinct, nonempty, and contain no path separator. -/
mutual
def treeWF : FsTree → Bool
| .file => true
| .dir es => entWF es

def entWF : FsEntries → Bool
| .nil => true
| .cons n t rest =>
  (n != "") && decide ('/' ∉ n.data) && decide (n ∉ entNames rest) && treeWF t && entWF rest
end

/- Whether the component path leads to a directory of the tree (the empty
path being the root itself). -/
mutual
def isDirAt : FsTree → List String → Bool
| .dir _, [] => true
| .file, [] => false
| .file, _ :: _ => false
| .dir es, c :: cs => entIsDirAt es c cs

def entIsDirAt : FsEntries → String → List String → Bool
| .nil, _, _ => false
| .cons n t rest, c, cs => if n = c then isDirAt t cs else entIsDirAt rest c cs
end

/-- Relative component path rendered the way the source renders it
(`filepath.Join` of the component names, separator `/`). -/
def joinComps : List String → String
| [] => ""
| [c] => c
| c :: cs => c ++ "/" ++ joinComps cs

/-- The mutable filesystem state touched by the run: the set of existing
directories and the files with their contents, keyed by component paths. -/
structure World where
  dirs : List (List String)
  files : List (List String × String)
deriving DecidableEq

/-- Errors of `os.Mkdir`: the target already exists, or a prefix of the path
does not resolve to an existing directory. -/
inductive MkdirErr where
| exist
| notExist
deriving DecidableEq

/-- Does the parent of `p` exist (the empty parent is the working directory)? -/
def parentOk (W : World) (p : List String) : Prop :=
  p.dropLast = [] ∨ p.dropLast ∈ W.dirs

instance (W : World) (p : List String) : Decidable (parentOk W p) := by
  unfold parentOk; infer_instance

/-- Model of `os.Mkdir(path, 0775)`: resolving a missing prefix fails with `notExist`;
an existing target (directory or file) fails with `exist`; otherwise the
directory is created. -/
def osMkdir (W : World) (p : List String) : Except MkdirErr World :=
  if parentOk W p then
    if p ∈ W.dirs ∨ p ∈ W.files.map Prod.fst then .error .exist
    else .ok ⟨p :: W.dirs, W.files⟩
  else .error .notExist

/-- Function `safeMkdir`: `os.IsExist` errors are absorbed into success. -/
def safeMkdir (W : World) (p : List String) : Except MkdirErr World :=
  match osMkdir W p with
  | .error .exist => .ok W
  | .error .notExist => .error .notExist
  | .ok W1 => .ok W1

/-- The creation loop of `recursiveCopyDir` over the listed subdirectories;
returns the state reached together with the first error, if any. -/
def mkdirAll : World → List (List String) → World × Option MkdirErr
| W, [] => (W, none)
| W, p :: ps =>
  match safeMkdir W p with
  | .error e => (W, some e)
  | .ok W1 => mkdirAll W1 ps

/-- Function `recursiveCopyDir(src, rmt)` (the spec's `MirrorDirs`): create `rmt`, then
create `rmt/dir` for every subdirectory `dir` of the source tree. -/
def recursiveCopyDir (src : FsTree) (rmt : List String) (W : World) : World × Option MkdirErr :=
  match safeMkdir W rmt with
  | .error e => (W, some e)
  | .ok W1 => mkdirAll W1 ((recursiveGetDirsC src).map (fun d => rmt ++ d))

/-- A template file work item (`TemplateFile`): input path, loaded input text,
output path, rendered output text. The shared `TemplateContext` is passed to
the render phase rather than stored, since every item holds the same one. -/
structure TemplateFile where
  InputPath : List String
  Input : String
  OutputPath : List String
  Output : String
deriving DecidableEq

/-- Errors a run can end with. `templateErr` carries the message produced by
the (external) template engine, for parse as well as execution failures. -/
inductive RunErr where
| mkdir (e : MkdirErr)
| fileNotFound (path : List String)
| templateErr (msg : String)
| writeFailed (path : List String)
| panicked
deriving DecidableEq

/-- Model of `os.ReadFile`. -/
def readFile (W : World) (p : List String) : Except RunErr String :=
  match mapGet W.files p with
  | none => .error (.fileNotFound p)
  | some content => .ok content

/-- Model of `os.WriteFile(path, data, 0664)`: creates or truncates the file; fails if
the parent directory does not exist. -/
def writeFile (W : World) (p : List String) (content : String) : Except RunErr World :=
  if parentOk W p then .ok ⟨W.dirs, mapInsert W.files p content⟩
  else .error (.writeFailed p)

/-- The behaviour of the external template engine (`text/template`):
given the template name (diagnostic only), the template text and the shared
context, produce the rendered text or an error message. The pipeline theorems
are proved for every such engine. -/
def RenderFn : Type := List String → String → TemplateContext → Except String String

/-- The first loop of `Run`: `LoadInput` for every template file in order,
stopping at the first failure. -/
def loadAll (W : World) : List TemplateFile → Except RunErr (List TemplateFile)
| [] => .ok []
| tf :: rest =>
  match readFile W tf.InputPath with
  | .error e => .error e
  | .ok content =>
    match loadAll W rest with
    | .error e => .error e
    | .ok rest1 => .ok ({ tf with Input := content } :: rest1)

/-- The second loop of `Run`: `Template` for every template file in order,
stopping at the first failure. -/
def renderAll (render : RenderFn) (tx : TemplateContext) : List TemplateFile → Except String (List TemplateFile)
| [] => .ok []
| tf :: rest =>
  match render tf.InputPath tf.Input tx with
  | .error msg => .error msg
  | .ok out =>
    match renderAll render tx rest with
    | .error e => .error e
    | .ok rest1 => .ok ({ tf with Output := out } :: rest1)

/-- The third loop of `Run`: `SaveOutput` for every template file in order,
stopping at the first failure; returns the filesystem state reached. -/
def saveAll : World → List TemplateFile → World × Option RunErr
| W, [] => (W, none)
| W, tf :: rest =>
  match writeFile W tf.OutputPath tf.Output with
  | .error e => (W, some e)
  | .ok W1 => saveAll W1 rest

/-- Path components of a flag path: `filepath.Join` over clean paths is
concatenation of the nonempty `/`-separated components. -/
def pathComponents (s : String) : List String :=
  (goSplit s "/").filter (fun c => c != "")

/-- The directory-mirroring step at the top of `Run`: in directory mode,
`recursiveCopyDir(flags.ID, flags.OD)`; in file mode, nothing. -/
def copyStep (srcTree : FsTree) (flags : Flags) (W : World) : World × Option MkdirErr :=
  if flags.ID ≠ "" then recursiveCopyDir srcTree (pathComponents flags.OD) W
  else (W, none)

/-- The work-item construction of `Run`: in directory mode one `TemplateFile`
per file found under the input tree, with paths joined under the input and
output roots; in file mode the single configured pair. -/
def buildTemplateFiles (srcTree : FsTree) (flags : Flags) : List TemplateFile :=
  if flags.ID ≠ "" then
    (recursiveGetFilesC srcTree).map (fun f =>
      ⟨pathComponents flags.ID ++ f, "", pathComponents flags.OD ++ f, ""⟩)
  else
    [⟨pathComponents flags.IF, "", pathComponents flags.OF, ""⟩]

/-- The three sequential phases of `Run` over the resolved template files. -/
def runPhases (render : RenderFn) (tx : TemplateContext) (tfs : List TemplateFile) (W : World) : World × Option RunErr :=
  match loadAll W tfs with
  | .error e => (W, some e)
  | .ok loaded =>
    match renderAll render tx loaded with
    | .error msg => (W, some (.templateErr msg))
    | .ok rendered => saveAll W rendered

/-- Function `Run`: mirror directories (directory mode), snapshot the environment,
resolve the template files, then load all, render all, save all; the first
error of any phase aborts the run. The pair is the filesystem state the run
leaves behind together with the error it returns, if any. -/
def Run (render : RenderFn) (srcTree : FsTree) (environ : List String) (flags : Flags) (W : World) : World × Option RunErr :=
  match copyStep srcTree flags W with
  | (W0, some e) => (W0, some (.mkdir e))
  | (W1, none) =>
    match NewTemplateContext environ with
    | none => (W1, some .panicked)
    | some tx => runPhases render tx (buildTemplateFiles srcTree flags) W1

/-- Join a list of character lists with a separator (inverse of splitting). -/
def joinWithC (sep : List Char) : List (List Char) → List Char
| [] => []
| [x] => x
| x :: xs => x ++ sep ++ joinWithC sep xs

/-- Join a list of strings with a separator string. -/
def joinWithS (sep : String) : List String → String
| [] => ""
| [x] => x
| x :: xs => x ++ sep ++ joinWithS sep xs

/-- Left fold of Go map assignments over a pair list (the shape of the insert
loops in `NewTemplateContext` and `Dict`). -/
def insFold : List (String × String) → List (String × String) → List (String × String)
| [], m => m
| p :: ps, m => insFold ps (mapInsert m p.1 p.2)

/-- The key/value pairs of the environment entries, in entry order; `none` if
some entry has no `=`. -/
def parsedPairs : List String → Option (List (String × String))
| [] => some []
| e :: rest =>
  match parseEnvEntry e, parsedPairs rest with
  | some kv, some ps => some (kv :: ps)
  | _, _ => none

/-- The key/value pairs of the dict items, in item order; `none` if some item
splits into fewer than two parts. -/
def itemPairs (kvDelimeter : String) : List String → Option (List (String × String))
| [] => some []
| item :: rest =>
  match goSplitN2 item kvDelimeter, itemPairs kvDelimeter rest with
  | k :: v :: _, some ps => some ((k, v) :: ps)
  | _, _ => none

/-! ### Lemmas about the Go map model -/

theorem mapGet_insert {κ α : Type} [DecidableEq κ] (m : List (κ × α)) (k k' : κ) (v : α) :
    mapGet (mapInsert m k v) k' = if k = k' then some v else mapGet m k' := by
  induction m with
  | nil => simp [mapGet, mapInsert]
  | cons p rest ih =>
    by_cases h : p.1 = k
    · by_cases h2 : k = k'
      · simp [mapInsert, mapGet, h, h2]
      · have h4 : ¬p.1 = k' := by rw [h]; exact h2
        simp [mapInsert, mapGet, h, h2, h4]
    · by_cases h2 : p.1 = k'
      · by_cases h3 : k = k'
        · exact absurd (h2.trans h3.symm) h
        · have h5 : ¬k' = k := fun hh => h (h2.trans hh)
          simp [mapInsert, mapGet, h, h2, h3, h5]
      · by_cases h3 : k = k'
        · subst h3; simp [mapInsert, mapGet, h, h2, ih]
        · simp [mapInsert, mapGet, h, h2, h3, ih]

theorem mapGet_insFold (ps : List (String × String)) (m : List (String × String)) (k : String) :
    mapGet (insFold ps m) k = optOr (lookupLast ps k) (mapGet m k) := by
  induction ps generalizing m with
  | nil => simp [insFold, lookupLast, optOr]
  | cons p ps ih =>
    show mapGet (insFold ps (mapInsert m p.1 p.2)) k = optOr (lookupLast (p :: ps) k) (mapGet m k)
    rw [ih, mapGet_insert]
    cases h : lookupLast ps k with
    | some v => simp [optOr, lookupLast, h]
    | none => by_cases h2 : p.1 = k <;> simp [optOr, lookupLast, h, h2]

theorem buildEnvs_eq (entries : List String) (m : List (String × String)) :
    buildEnvs entries m = (parsedPairs entries).map (fun ps => insFold ps m) := by
  induction entries generalizing m with
  | nil => rfl
  | cons e rest ih =>
    show (match parseEnvEntry e with
          | none => none
          | some kv => buildEnvs rest (mapInsert m kv.1 kv.2))
        = (parsedPairs (e :: rest)).map (fun ps => insFold ps m)
    cases hpe : parseEnvEntry e with
    | none => simp [parsedPairs, hpe]
    | some kv =>
      show buildEnvs rest (mapInsert m kv.1 kv.2) = (parsedPairs (e :: rest)).map (fun ps => insFold ps m)
      rw [ih]
      cases hps : parsedPairs rest with
      | none => simp [parsedPairs, hpe, hps]
      | some ps => simp [parsedPairs, hpe, hps, insFold]

theorem dictInsertItems_eq (d2 : String) (items : List String) (dict : List (String × String)) :
    dictInsertItems d2 items dict =
      (match itemPairs d2 items with
       | some ps => .ok (insFold ps dict)
       | none => .panic) := by
  induction items generalizing dict with
  | nil => rfl
  | cons item rest ih =>
    show (match goSplitN2 item d2 with
          | k :: v :: _ => dictInsertItems d2 rest (mapInsert dict k v)
          | _ => .panic)
        = (match itemPairs d2 (item :: rest) with
           | some ps => .ok (insFold ps dict)
           | none => .panic)
    cases hsp : goSplitN2 item d2 with
    | nil => simp [itemPairs, hsp]
    | cons k tl =>
      cases tl with
      | nil => simp [itemPairs, hsp]
      | cons v tl2 =>
        show dictInsertItems d2 rest (mapInsert dict k v)
            = (match itemPairs d2 (item :: rest) with
               | some ps => .ok (insFold ps dict)
               | none => .panic)
        rw [ih]
        cases hps : itemPairs d2 rest with
        | none => simp [itemPairs, hsp, hps]
        | some ps => simp [itemPairs, hsp, hps, insFold]

theorem itemPairs_none (d2 : String) (items : List String)
    (h : ∃ item ∈ items, (goSplitN2 item d2).length < 2) : itemPairs d2 items = none := by
  induction items with
  | nil => simp at h
  | cons item rest ih =>
    obtain ⟨bad, hmem, hlen⟩ := h
    show (match goSplitN2 item d2, itemPairs d2 rest with
          | k :: v :: _, some ps => some ((k, v) :: ps)
          | _, _ => none) = none
    rcases List.mem_cons.mp hmem with rfl | hmem2
    · cases hsp : goSplitN2 bad d2 with
      | nil => rfl
      | cons k tl =>
        cases tl with
        | nil => rfl
        | cons v tl2 => rw [hsp, List.length_cons, List.length_cons] at hlen; omega
    · rw [ih ⟨bad, hmem2, hlen⟩]
      cases goSplitN2 item d2 with
      | nil => rfl
      | cons k tl => cases tl <;> rfl

/-! ### Lemmas about first-occurrence splitting -/

theorem firstSplit_sound (sep : List Char) :
    ∀ s k r : List Char, firstSplit sep s = some (k, r) → s = k ++ sep ++ r := by
  intro s
  induction s with
  | nil => intro k r h; simp [firstSplit] at h
  | cons c s ih =>
    intro k r h
    simp only [firstSplit] at h
    by_cases hp : sep <+: (c :: s)
    · rw [if_pos hp] at h
      injection h with h1
      injection h1 with ha hb
      subst ha; subst hb
      simpa using (List.prefix_iff_eq_append.mp hp).symm
    · rw [if_neg hp] at h
      cases hfs : firstSplit sep s with
      | none => rw [hfs] at h; cases h
      | some kr =>
        obtain ⟨ka, ra⟩ := kr
        rw [hfs] at h
        injection h with h1
        injection h1 with ha hb
        subst ha; subst hb
        have h2 := ih ka ra hfs
        simp [h2]

theorem firstSplit_min (sep : List Char) :
    ∀ s k r : List Char, firstSplit sep s = some (k, r) →
      ∀ k2 r2 : List Char, s = k2 ++ sep ++ r2 → k.length ≤ k2.length := by
  intro s
  induction s with
  | nil => intro k r h; simp [firstSplit] at h
  | cons c s ih =>
    intro k r h k2 r2 heq
    simp only [firstSplit] at h
    by_cases hp : sep <+: (c :: s)
    · rw [if_pos hp] at h
      injection h with h1
      injection h1 with ha hb
      subst ha
      simp
    · rw [if_neg hp] at h
      cases hfs : firstSplit sep s with
      | none => rw [hfs] at h; cases h
      | some kr =>
        obtain ⟨ka, ra⟩ := kr
        rw [hfs] at h
        injection h with h1
        injection h1 with ha hb
        subst ha
        cases k2 with
        | nil => exact absurd ⟨r2, by simpa using heq.symm⟩ hp
        | cons c2 k2t =>
          simp only [List.cons_append, List.cons.injEq] at heq
          simp only [List.length_cons]
          exact Nat.succ_le_succ (ih ka ra hfs k2t r2 heq.2)

theorem firstSplit_none (sep : List Char) (hsep : sep ≠ []) :
    ∀ s : List Char, firstSplit sep s = none → ∀ k r : List Char, s ≠ k ++ sep ++ r := by
  intro s
  induction s with
  | nil =>
    intro h k r heq
    have h2 := heq.symm
    simp only [List.append_assoc, List.append_eq_nil] at h2
    exact hsep h2.2.1
  | cons c s ih =>
    intro h k r heq
    simp only [firstSplit] at h
    by_cases hp : sep <+: (c :: s)
    · rw [if_pos hp] at h; cases h
    · rw [if_neg hp] at h
      cases hfs : firstSplit sep s with
      | some kr => obtain ⟨a, b⟩ := kr; rw [hfs] at h; cases h
      | none =>
        cases k with
        | nil => exact hp ⟨r, by simpa using heq.symm⟩
        | cons ck kt =>
          simp only [List.cons_append, List.cons.injEq] at heq
          exact ih hfs kt r heq.2

theorem firstSplit_len (sep : List Char) (hsep : sep ≠ []) (s k r : List Char)
    (h : firstSplit sep s = some (k, r)) : r.length < s.length := by
  have h2 := firstSplit_sound sep s k r h
  have h3 : sep.length ≠ 0 := fun hh => hsep (List.length_eq_zero.mp hh)
  rw [h2]
  simp only [List.length_append]
  omega

theorem goSplitLoop_ne_nil (sep : List Char) (fuel : Nat) (s : List Char) :
    goSplitLoop sep fuel s ≠ [] := by
  cases fuel with
  | zero => simp [goSplitLoop]
  | succ f =>
    simp only [goSplitLoop]
    rcases h : firstSplit sep s with _ | ⟨k, r⟩ <;> simp

theorem joinWithC_goSplitLoop (sep : List Char) (hsep : sep ≠ []) :
    ∀ (fuel : Nat) (s : List Char), s.length < fuel →
      joinWithC sep (goSplitLoop sep fuel s) = s := by
  intro fuel
  induction fuel with
  | zero => intro s h; omega
  | succ f ih =>
    intro s h
    simp only [goSplitLoop]
    cases hfs : firstSplit sep s with
    | none => rfl
    | some kr =>
      obtain ⟨k, r⟩ := kr
      show joinWithC sep (k :: goSplitLoop sep f r) = s
      have hlt : r.length < s.length := firstSplit_len sep hsep s k r hfs
      have hr : joinWithC sep (goSplitLoop sep f r) = r := ih r (by omega)
      cases hxs : goSplitLoop sep f r with
      | nil => exact absurd hxs (goSplitLoop_ne_nil sep f r)
      | cons y ys =>
        rw [hxs] at hr
        show k ++ sep ++ joinWithC sep (y :: ys) = s
        rw [hr]
        exact (firstSplit_sound sep s k r hfs).symm

theorem goSplitLoop_no_sep (sep : List Char) (hsep : sep ≠ []) :
    ∀ (fuel : Nat) (s : List Char), s.length < fuel →
      ∀ piece ∈ goSplitLoop sep fuel s, ∀ a b : List Char, piece ≠ a ++ sep ++ b := by
  intro fuel
  induction fuel with
  | zero => intro s h; omega
  | succ f ih =>
    intro s h piece hmem a b heq
    simp only [goSplitLoop] at hmem
    cases hfs : firstSplit sep s with
    | none =>
      rw [hfs] at hmem
      simp only [List.mem_singleton] at hmem
      subst hmem
      exact firstSplit_none sep hsep piece hfs a b heq
    | some kr =>
      obtain ⟨k, r⟩ := kr
      rw [hfs] at hmem
      rcases List.mem_cons.mp hmem with rfl | hmem2
      · have hs := firstSplit_sound sep s piece r hfs
        have hmin := firstSplit_min sep s piece r hfs
        have hs2 : s = a ++ sep ++ (b ++ sep ++ r) := by
          rw [hs, heq]
          simp [List.append_assoc]
        have h4 := hmin a (b ++ sep ++ r) hs2
        rw [heq] at h4
        simp only [List.length_append] at h4
        have h3 : sep.length ≠ 0 := fun hh => hsep (List.length_eq_zero.mp hh)
        omega
      · have hlt : r.length < s.length := firstSplit_len sep hsep s k r hfs
        exact ih r (by omega) piece hmem2 a b heq

theorem goSplitChars_eq_loop (s sep : List Char) (hsep : sep ≠ []) :
    goSplitChars s sep = goSplitLoop sep (s.length + 1) s := by
  simp [goSplitChars, hsep]

theorem joinWithC_goSplitChars (s sep : List Char) (hsep : sep ≠ []) :
    joinWithC sep (goSplitChars s sep) = s := by
  rw [goSplitChars_eq_loop s sep hsep]
  exact joinWithC_goSplitLoop sep hsep (s.length + 1) s (by omega)

theorem goSplitChars_no_sep (s sep : List Char) (hsep : sep ≠ [])
    (piece : List Char) (hmem : piece ∈ goSplitChars s sep) (a b : List Char) :
    piece ≠ a ++ sep ++ b := by
  rw [goSplitChars_eq_loop s sep hsep] at hmem
  exact goSplitLoop_no_sep sep hsep (s.length + 1) s (by omega) piece hmem a b

/-! ### Transfer between `String` and its character list -/

theorem data_ne_nil (s : String) (h : s ≠ "") : s.data ≠ [] :=
  fun hh => h (String.ext (by rw [hh]))

theorem joinWithS_data (sep : String) (pieces : List (List Char)) :
    (joinWithS sep (pieces.map String.mk)).data = joinWithC sep.data pieces := by
  induction pieces with
  | nil => rfl
  | cons x xs ih =>
    cases xs with
    | nil => rfl
    | cons y ys =>
      show (String.mk x ++ sep ++ joinWithS sep (List.map String.mk (y :: ys))).data
          = x ++ sep.data ++ joinWithC sep.data (y :: ys)
      rw [String.data_append, String.data_append, ih]

theorem goSplit_join (v d : String) (hd : d ≠ "") :
    joinWithS d (goSplit v d) = v := by
  apply String.ext
  rw [goSplit, joinWithS_data]
  exact joinWithC_goSplitChars v.data d.data (data_ne_nil d hd)

theorem goSplit_no_sep (v d : String) (hd : d ≠ "") (piece : String)
    (hmem : piece ∈ goSplit v d) (a b : String) : piece ≠ a ++ d ++ b := by
  intro heq
  rw [goSplit, List.mem_map] at hmem
  obtain ⟨pc, hpc, rfl⟩ := hmem
  apply goSplitChars_no_sep v.data d.data (data_ne_nil d hd) pc hpc a.data b.data
  have h2 := congrArg String.data heq
  rw [String.data_append, String.data_append] at h2
  exact h2

theorem goSplit_empty (d : String) (hd : d ≠ "") : goSplit "" d = [""] := by
  rw [goSplit, goSplitChars_eq_loop _ _ (data_ne_nil d hd)]
  rfl

theorem goSplitN2_eq_two (s sep : String) (hsep : sep ≠ "") (k v : String)
    (h : goSplitN2 s sep = [k, v]) :
    s = k ++ sep ++ v ∧ ∀ a b : String, s = a ++ sep ++ b → k.length ≤ a.length := by
  rw [goSplitN2, goSplitN2Chars, if_neg (data_ne_nil sep hsep)] at h
  cases hfs : firstSplit sep.data s.data with
  | none => rw [hfs] at h; simp at h
  | some kr =>
    obtain ⟨kc, rc⟩ := kr
    rw [hfs] at h
    simp only [List.map_cons, List.map_nil, List.cons.injEq, and_true] at h
    obtain ⟨hk, hv⟩ := h
    have hs := firstSplit_sound sep.data s.data kc rc hfs
    constructor
    · apply String.ext
      rw [String.data_append, String.data_append, ← hk, ← hv]
      exact hs
    · intro a b heq
      have hd2 : s.data = a.data ++ sep.data ++ b.data := by
        have h2 := congrArg String.data heq
        rwa [String.data_append, String.data_append] at h2
      have h3 := firstSplit_min sep.data s.data kc rc hfs a.data b.data hd2
      have h4 : k.length = kc.length := by rw [← hk]; rfl
      rw [h4]
      exact h3

theorem parseEnvEntry_sound (e k v : String) (h : parseEnvEntry e = some (k, v)) :
    ∃ raw, e = k ++ "=" ++ raw ∧ v = goTrimNL raw
      ∧ ∀ a b : String, e = a ++ "=" ++ b → k.length ≤ a.length := by
  rw [parseEnvEntry] at h
  cases hsp : goSplitN2 e "=" with
  | nil => rw [hsp] at h; cases h
  | cons k0 tl =>
    cases tl with
    | nil => rw [hsp] at h; cases h
    | cons raw tl2 =>
      cases tl2 with
      | cons z tl3 => rw [hsp] at h; cases h
      | nil =>
        rw [hsp] at h
        injection h with h1
        injection h1 with ha hb
        subst ha
        have h2 := goSplitN2_eq_two e "=" (by decide) k0 raw hsp
        exact ⟨raw, h2.1, hb.symm, h2.2⟩

theorem goSplitN2_len (s sep : String) : (goSplitN2 s sep).length ≤ 2 := by
  rw [goSplitN2, goSplitN2Chars]
  by_cases h : sep.data = []
  · rw [if_pos h]
    cases s.data with
    | nil => simp [explodeN2]
    | cons c cs => cases cs <;> simp [explodeN2]
  · rw [if_neg h]
    cases hfs : firstSplit sep.data s.data with
    | none => simp
    | some kr => obtain ⟨k, r⟩ := kr; simp

theorem itemPairs_sound (d2 : String) (hd2 : d2 ≠ "") :
    ∀ (items : List String) (pairs : List (String × String)),
      itemPairs d2 items = some pairs →
      List.Forall₂ (fun (item : String) (p : String × String) =>
        item = p.1 ++ d2 ++ p.2
        ∧ ∀ a b : String, item = a ++ d2 ++ b → p.1.length ≤ a.length) items pairs := by
  intro items
  induction items with
  | nil =>
    intro pairs hp
    injection hp with h1
    subst h1
    exact List.Forall₂.nil
  | cons item rest ih =>
    intro pairs hp
    show List.Forall₂ _ (item :: rest) pairs
    have hp2 : (match goSplitN2 item d2, itemPairs d2 rest with
        | k :: v :: _, some ps => some ((k, v) :: ps)
        | _, _ => none) = some pairs := hp
    cases hsp : goSplitN2 item d2 with
    | nil => rw [hsp] at hp2; cases hp2
    | cons k tl =>
      cases tl with
      | nil => rw [hsp] at hp2; cases hp2
      | cons v tl2 =>
        have hlen := goSplitN2_len item d2
        rw [hsp] at hlen
        simp only [List.length_cons] at hlen
        have htl2 : tl2 = [] := List.length_eq_zero.mp (by omega)
        subst htl2
        cases hpr : itemPairs d2 rest with
        | none => rw [hsp, hpr] at hp2; cases hp2
        | some ps =>
          rw [hsp, hpr] at hp2
          injection hp2 with h1
          subst h1
          have h2 := goSplitN2_eq_two item d2 hd2 k v hsp
          exact List.Forall₂.cons ⟨h2.1, h2.2⟩ (ih ps hpr)

/-! ### Claim C4 -/

/-- C4: for every name `N` absent from the environment snapshot, `Env(N)`,
`List(N, d)` and `Dict(N, d1, d2)` all fail with the missing-variable error,
while `Exist(N)` is `false` and `NotExist(N)` is `true`; `Exist` and
`NotExist` are total `Bool`-valued functions, so neither can fail. -/
theorem c4_absent_name_behaviour (tx : TemplateContext) (N d1 d2 d3 : String)
    (h : mapGet tx.envs N = none) :
    tx.Env N = .err (.missingVariable N)
    ∧ tx.EnvList N d1 = .err (.missingVariable N)
    ∧ tx.Dict N d2 d3 = .err (.missingVariable N)
    ∧ tx.Exist N = false
    ∧ tx.NotExist N = true := by
  have hEnv : tx.Env N = .err (.missingVariable N) := by
    simp [TemplateContext.Env, h]
  refine ⟨hEnv, ?_, ?_, ?_, ?_⟩
  · simp [TemplateContext.EnvList, hEnv]
  · simp [TemplateContext.Dict, hEnv]
  · simp [TemplateContext.Exist, h]
  · simp [TemplateContext.NotExist, h]

/-- Witness for C4 at a concrete snapshot and name. -/
theorem c4_absent_name_behaviour_witness :
    mapGet (TemplateContext.mk [("HOME", "/root")]).envs "X" = none
    ∧ ((TemplateContext.mk [("HOME", "/root")]).Env "X" = .err (.missingVariable "X")
       ∧ (TemplateContext.mk [("HOME", "/root")]).EnvList "X" "," = .err (.missingVariable "X")
       ∧ (TemplateContext.mk [("HOME", "/root")]).Dict "X" ";" "=" = .err (.missingVariable "X")
       ∧ (TemplateContext.mk [("HOME", "/root")]).Exist "X" = false
       ∧ (TemplateContext.mk [("HOME", "/root")]).NotExist "X" = true) :=
  ⟨by decide, c4_absent_name_behaviour ⟨[("HOME", "/root")]⟩ "X" "," ";" "=" (by decide)⟩

/-! ### Claim C5 -/

/-- C5 counterexample: with both `-if` and `-id` non-empty (and the two
outputs set) the validation switch of `NewFlags` reports NO error, and `Run`
then proceeds (in directory mode) — refuting the claim that a mixed
configuration is rejected before the pipeline runs. -/
theorem c5_mixed_modes_counterexample :
    validateFlags ⟨"a", "b", "c", "d"⟩ = none
    ∧ Run (fun _ s _ => .ok s) (.dir .nil) [] ⟨"a", "b", "c", "d"⟩ ⟨[], []⟩
        = (⟨[["d"]], []⟩, none) :=
  ⟨by decide, by decide⟩

/-- C5 amended: the validation switch accepts a configuration exactly when at
least one input is set and each set input has its paired output non-empty; it
does NOT reject `-if` and `-id` being set together (in that case `Run` uses
directory mode, `flags.ID` taking precedence). -/
theorem c5_flags_validation (f : Flags) :
    validateFlags f = none ↔
      ((f.IF ≠ "" ∨ f.ID ≠ "") ∧ (f.IF = "" ∨ f.OF ≠ "") ∧ (f.ID = "" ∨ f.OD ≠ "")) := by
  rw [validateFlags]
  split_ifs with h1 h2 h3 <;> simp <;> tauto

/-! ### Claim C1 -/

/-- C1 counterexample: `Dict` on the value `"a"` (no `=` in the single item)
ends in the modelled index-out-of-range panic, which is not a reported
(returned) error — refuting the claim that it fails with a `MalformedPair`
error rather than an unguarded out-of-bounds access. -/
theorem c1_dict_malformed_counterexample :
    TemplateContext.Dict ⟨[("A", "a")]⟩ "A" ";" "=" = .panic
    ∧ (TemplateContext.Dict ⟨[("A", "a")]⟩ "A" ";" "=").isErr = false :=
  ⟨by decide, by decide⟩

/-- C1 amended: when the value of a present variable has an item that splits
into fewer than two parts on `kvDelimeter` (in particular, an item with no
occurrence of it), `Dict` reaches the unguarded `v[1]` index and panics; no
error value is returned. -/
theorem c1_dict_malformed_panics (tx : TemplateContext) (N d1 d2 v : String)
    (hv : mapGet tx.envs N = some v)
    (hbad : ∃ item ∈ goSplit v d1, (goSplitN2 item d2).length < 2) :
    tx.Dict N d1 d2 = .panic := by
  have hEnv : tx.Env N = .ok v := by simp [TemplateContext.Env, hv]
  show (match tx.Env N with
        | .err e => .err e
        | .panic => .panic
        | .ok env => dictInsertItems d2 (goSplit env d1) []) = Outcome.panic
  rw [hEnv]
  show dictInsertItems d2 (goSplit v d1) [] = Outcome.panic
  rw [dictInsertItems_eq, itemPairs_none d2 _ hbad]

/-- Witness for C1 (amended) at the claim's own example. -/
theorem c1_dict_malformed_panics_witness :
    (mapGet (TemplateContext.mk [("A", "a")]).envs "A" = some "a"
     ∧ ∃ item ∈ goSplit "a" ";", (goSplitN2 item "=").length < 2)
    ∧ TemplateContext.Dict ⟨[("A", "a")]⟩ "A" ";" "=" = .panic :=
  ⟨⟨by decide, by decide⟩,
    c1_dict_malformed_panics ⟨[("A", "a")]⟩ "A" ";" "=" "a" (by decide) (by decide)⟩

/-! ### Claim C10 -/

/-- C10: `Dict` folds `dict[key] = value` over the items in order, so a key
occurring in several items ends bound to the value of the LAST such item
(`lookupLast`), earlier bindings being silently overwritten; the closing
conjunct checks the duplicate-key example "a=1;a=2" ending as a→2 only. -/
theorem c10_dict_last_wins (tx : TemplateContext) (N d1 d2 v : String)
    (pairs : List (String × String))
    (hv : mapGet tx.envs N = some v)
    (hp : itemPairs d2 (goSplit v d1) = some pairs) :
    tx.Dict N d1 d2 = .ok (insFold pairs [])
    ∧ (∀ key, mapGet (insFold pairs []) key = lookupLast pairs key)
    ∧ TemplateContext.Dict ⟨[("A", "a=1;a=2")]⟩ "A" ";" "=" = .ok [("a", "2")] := by
  have hEnv : tx.Env N = .ok v := by simp [TemplateContext.Env, hv]
  refine ⟨?_, ?_, by decide⟩
  · show (match tx.Env N with
          | .err e => .err e
          | .panic => .panic
          | .ok env => dictInsertItems d2 (goSplit env d1) []) = Outcome.ok (insFold pairs [])
    rw [hEnv]
    show dictInsertItems d2 (goSplit v d1) [] = Outcome.ok (insFold pairs [])
    rw [dictInsertItems_eq, hp]
  · intro key
    rw [mapGet_insFold]
    cases h : lookupLast pairs key <;> simp [optOr, mapGet]

/-- Witness for C10 at the duplicate-key example. -/
theorem c10_dict_last_wins_witness :
    (mapGet (TemplateContext.mk [("A", "a=1;a=2")]).envs "A" = some "a=1;a=2"
     ∧ itemPairs "=" (goSplit "a=1;a=2" ";") = some [("a", "1"), ("a", "2")])
    ∧ (TemplateContext.Dict ⟨[("A", "a=1;a=2")]⟩ "A" ";" "="
        = .ok (insFold [("a", "1"), ("a", "2")] [])
       ∧ (∀ key, mapGet (insFold [("a", "1"), ("a", "2")] []) key
            = lookupLast [("a", "1"), ("a", "2")] key)
       ∧ TemplateContext.Dict ⟨[("A", "a=1;a=2")]⟩ "A" ";" "=" = .ok [("a", "2")]) :=
  ⟨⟨by decide, by decide⟩,
    c10_dict_last_wins ⟨[("A", "a=1;a=2")]⟩ "A" ";" "=" "a=1;a=2"
      [("a", "1"), ("a", "2")] (by decide) (by decide)⟩

/-! ### Claim C6 -/

/-- C6: when every item of the split value contains the (nonempty)
`kvDelimeter`, `Dict` succeeds, and item by item (in order, `Forall₂`) the
produced (key, value) pair recomposes the item as
`key ++ kvDelimeter ++ value` with `key` shortest among all such
decompositions — i.e. the item is split at the FIRST occurrence of the
delimiter into exactly two parts; the closing conjuncts check the claim's two
examples, including "a=1=x" mapping a→"1=x". -/
theorem c6_dict_first_occurrence (tx : TemplateContext) (N d1 d2 v : String)
    (pairs : List (String × String))
    (hd2 : d2 ≠ "")
    (hv : mapGet tx.envs N = some v)
    (hp : itemPairs d2 (goSplit v d1) = some pairs) :
    tx.Dict N d1 d2 = .ok (insFold pairs [])
    ∧ List.Forall₂ (fun (item : String) (p : String × String) =>
        item = p.1 ++ d2 ++ p.2
        ∧ ∀ a b : String, item = a ++ d2 ++ b → p.1.length ≤ a.length)
        (goSplit v d1) pairs
    ∧ TemplateContext.Dict ⟨[("A", "a=1;b=2")]⟩ "A" ";" "=" = .ok [("a", "1"), ("b", "2")]
    ∧ TemplateContext.Dict ⟨[("A", "a=1=x")]⟩ "A" ";" "=" = .ok [("a", "1=x")] := by
  have hEnv : tx.Env N = .ok v := by simp [TemplateContext.Env, hv]
  refine ⟨?_, itemPairs_sound d2 hd2 (goSplit v d1) pairs hp, by decide, by decide⟩
  show (match tx.Env N with
        | .err e => .err e
        | .panic => .panic
        | .ok env => dictInsertItems d2 (goSplit env d1) []) = Outcome.ok (insFold pairs [])
  rw [hEnv]
  show dictInsertItems d2 (goSplit v d1) [] = Outcome.ok (insFold pairs [])
  rw [dictInsertItems_eq, hp]

/-- Witness for C6 at the claim's first example. -/
theorem c6_dict_first_occurrence_witness :
    (("=" : String) ≠ ""
     ∧ mapGet (TemplateContext.mk [("A", "a=1;b=2")]).envs "A" = some "a=1;b=2"
     ∧ itemPairs "=" (goSplit "a=1;b=2" ";") = some [("a", "1"), ("b", "2")])
    ∧ TemplateContext.Dict ⟨[("A", "a=1;b=2")]⟩ "A" ";" "="
        = .ok (insFold [("a", "1"), ("b", "2")] []) :=
  ⟨⟨by decide, by decide, by decide⟩,
    (c6_dict_first_occurrence ⟨[("A", "a=1;b=2")]⟩ "A" ";" "=" "a=1;b=2"
      [("a", "1"), ("b", "2")] (by decide) (by decide) (by decide)).1⟩

/-! ### Claim C7 -/

/-- C7 counterexample: the claim quantifies over EVERY delimiter, but for the
empty delimiter Go's `strings.Split` explodes the value into characters and
an empty value yields the EMPTY sequence — `List` on an empty value with
delimiter `""` returns `[]`, not `[""]`. -/
theorem c7_list_split_counterexample :
    TemplateContext.EnvList ⟨[("V", "")]⟩ "V" "" = .ok []
    ∧ TemplateContext.EnvList ⟨[("V", "")]⟩ "V" "" ≠ .ok [""] :=
  ⟨by decide, by decide⟩

/-- C7 amended: for every NONEMPTY delimiter `d`, `List` of a present
variable returns the value split at every occurrence of `d`, in order and
with nothing filtered: joining the pieces with `d` restores the value, no
piece contains `d`, and an empty value yields the one-element `[""]`.
(With the empty delimiter the code instead explodes the value into
characters, an empty value giving `[]`.) -/
theorem c7_list_split (tx : TemplateContext) (N d v : String)
    (hd : d ≠ "") (hv : mapGet tx.envs N = some v) :
    tx.EnvList N d = .ok (goSplit v d)
    ∧ joinWithS d (goSplit v d) = v
    ∧ (∀ piece ∈ goSplit v d, ∀ a b : String, piece ≠ a ++ d ++ b)
    ∧ (v = "" → goSplit v d = [""]) := by
  have hEnv : tx.Env N = .ok v := by simp [TemplateContext.Env, hv]
  refine ⟨by simp [TemplateContext.EnvList, hEnv], goSplit_join v d hd, ?_, ?_⟩
  · intro piece hmem a b
    exact goSplit_no_sep v d hd piece hmem a b
  · intro hE
    rw [hE]
    exact goSplit_empty d hd

/-- Witness for C7 (amended) at `List("a,b,c", ",")`. -/
theorem c7_list_split_witness :
    ((("," : String) ≠ "")
     ∧ mapGet (TemplateContext.mk [("V", "a,b,c")]).envs "V" = some "a,b,c")
    ∧ (TemplateContext.EnvList ⟨[("V", "a,b,c")]⟩ "V" "," = .ok (goSplit "a,b,c" ",")
       ∧ joinWithS "," (goSplit "a,b,c" ",") = "a,b,c"
       ∧ (∀ piece ∈ goSplit "a,b,c" ",", ∀ a b : String, piece ≠ a ++ "," ++ b)
       ∧ ("a,b,c" = "" → goSplit "a,b,c" "," = [""])) :=
  ⟨⟨by decide, by decide⟩,
    c7_list_split ⟨[("V", "a,b,c")]⟩ "V" "," "a,b,c" (by decide) (by decide)⟩

/-! ### Claim C3 -/

/-- C3 counterexample: `strings.Trim(value, "\n")` trims BOTH ends, so the
entry `"N=\nx"` is snapshotted with value `"x"` and not `"\nx"` — a leading
newline of the raw value is NOT preserved, refuting the claim. -/
theorem c3_env_snapshot_counterexample :
    NewTemplateContext ["N=\nx"] = some ⟨[("N", "x")]⟩
    ∧ NewTemplateContext ["N=\nx"] ≠ some ⟨[("N", "\nx")]⟩ :=
  ⟨by decide, by decide⟩

/-- C3 amended: the snapshot maps each parsable `NAME=VALUE` entry by
splitting at the FIRST `=` (the key is the shortest prefix before an `=`)
and trimming newline characters from BOTH ends of the value (`goTrimNL`,
modelling `strings.Trim`); a name occurring in several entries keeps the last
entry's value; and for every snapshotted name, `Env` returns exactly the
snapshot value with no further transformation. -/
theorem c3_env_snapshot (environ : List String) (ps : List (String × String))
    (hps : parsedPairs environ = some ps) :
    NewTemplateContext environ = some ⟨insFold ps []⟩
    ∧ (∀ e k v, parseEnvEntry e = some (k, v) →
        ∃ raw, e = k ++ "=" ++ raw ∧ v = goTrimNL raw
          ∧ ∀ a b : String, e = a ++ "=" ++ b → k.length ≤ a.length)
    ∧ (∀ n, mapGet (insFold ps []) n = lookupLast ps n)
    ∧ (∀ tx : TemplateContext, NewTemplateContext environ = some tx →
        ∀ n v, mapGet tx.envs n = some v → tx.Env n = .ok v) := by
  refine ⟨?_, fun e k v h => parseEnvEntry_sound e k v h, ?_, ?_⟩
  · rw [NewTemplateContext, buildEnvs_eq, hps]
    rfl
  · intro n
    rw [mapGet_insFold]
    cases h : lookupLast ps n <;> simp [optOr, mapGet]
  · intro tx htx n v hv
    simp [TemplateContext.Env, hv]

/-- Witness for C3 (amended) at a two-entry environment with newlines. -/
theorem c3_env_snapshot_witness :
    parsedPairs ["A=1\n", "B=\nx"] = some [("A", "1"), ("B", "x")]
    ∧ (NewTemplateContext ["A=1\n", "B=\nx"]
        = some ⟨insFold [("A", "1"), ("B", "x")] []⟩
       ∧ (∀ e k v, parseEnvEntry e = some (k, v) →
           ∃ raw, e = k ++ "=" ++ raw ∧ v = goTrimNL raw
             ∧ ∀ a b : String, e = a ++ "=" ++ b → k.length ≤ a.length)
       ∧ (∀ n, mapGet (insFold [("A", "1"), ("B", "x")] []) n
            = lookupLast [("A", "1"), ("B", "x")] n)
       ∧ (∀ tx : TemplateContext, NewTemplateContext ["A=1\n", "B=\nx"] = some tx →
           ∀ n v, mapGet tx.envs n = some v → tx.Env n = .ok v)) :=
  ⟨by decide, c3_env_snapshot ["A=1\n", "B=\nx"] [("A", "1"), ("B", "x")] (by decide)⟩

/-! ### Lemmas about directory creation -/

theorem safeMkdir_ok_facts (W W' : World) (p : List String)
    (h : safeMkdir W p = .ok W') :
    (W.dirs ⊆ W'.dirs ∧ W'.files = W.files)
    ∧ (parentOk W' p ∧ (p ∈ W'.dirs ∨ p ∈ W'.files.map Prod.fst)) := by
  rw [safeMkdir, osMkdir] at h
  by_cases hpar : parentOk W p
  · rw [if_pos hpar] at h
    by_cases hex : p ∈ W.dirs ∨ p ∈ W.files.map Prod.fst
    · rw [if_pos hex] at h
      injection h with h1
      subst h1
      exact ⟨⟨fun x hx => hx, rfl⟩, hpar, hex⟩
    · rw [if_neg hex] at h
      injection h with h1
      subst h1
      refine ⟨⟨fun x hx => List.mem_cons_of_mem p hx, rfl⟩, ?_, Or.inl (List.mem_cons_self p _)⟩
      rw [parentOk] at hpar ⊢
      rcases hpar with h2 | h2
      · exact Or.inl h2
      · exact Or.inr (List.mem_cons_of_mem p h2)
  · rw [if_neg hpar] at h
    cases h

theorem safeMkdir_of_exists (W : World) (p : List String)
    (hpar : parentOk W p) (hex : p ∈ W.dirs ∨ p ∈ W.files.map Prod.fst) :
    safeMkdir W p = .ok W := by
  rw [safeMkdir, osMkdir, if_pos hpar, if_pos hex]

theorem mkdirAll_ok_facts : ∀ (l : List (List String)) (W W' : World),
    mkdirAll W l = (W', none) →
    (W.dirs ⊆ W'.dirs ∧ W'.files = W.files)
    ∧ ∀ p ∈ l, parentOk W' p ∧ (p ∈ W'.dirs ∨ p ∈ W'.files.map Prod.fst) := by
  intro l
  induction l with
  | nil =>
    intro W W' h
    injection h with h1 h2
    subst h1
    exact ⟨⟨fun x hx => hx, rfl⟩, by simp⟩
  | cons p ps ih =>
    intro W W' h
    rw [mkdirAll] at h
    cases hsm : safeMkdir W p with
    | error e => rw [hsm] at h; simp at h
    | ok W1 =>
      rw [hsm] at h
      have h2 : mkdirAll W1 ps = (W', none) := h
      obtain ⟨⟨hsub1, hf1⟩, hpar1, hex1⟩ := safeMkdir_ok_facts W W1 p hsm
      obtain ⟨⟨hsub2, hf2⟩, hrest⟩ := ih W1 W' h2
      refine ⟨⟨fun x hx => hsub2 (hsub1 hx), hf2.trans hf1⟩, ?_⟩
      intro q hq
      rcases List.mem_cons.mp hq with rfl | hq2
      · constructor
        · rw [parentOk] at hpar1 ⊢
          rcases hpar1 with hh | hh
          · exact Or.inl hh
          · exact Or.inr (hsub2 hh)
        · rcases hex1 with hh | hh
          · exact Or.inl (hsub2 hh)
          · right; rw [hf2]; exact hh
      · exact hrest q hq2

theorem mkdirAll_of_exists : ∀ (l : List (List String)) (W : World),
    (∀ p ∈ l, parentOk W p ∧ (p ∈ W.dirs ∨ p ∈ W.files.map Prod.fst)) →
    mkdirAll W l = (W, none) := by
  intro l
  induction l with
  | nil => intro W h; rfl
  | cons p ps ih =>
    intro W h
    have hp := h p (List.mem_cons_self p ps)
    have hsm := safeMkdir_of_exists W p hp.1 hp.2
    rw [mkdirAll, hsm]
    exact ih W (fun q hq => h q (List.mem_cons_of_mem p hq))

/-! ### Claim C8 -/

/-- C8: `recursiveCopyDir` (the spec's `MirrorDirs`) is idempotent with
respect to existing directories: after a successful run reaching state `W1`,
running it again from `W1` succeeds and leaves the state unchanged, because
creating an already existing directory is absorbed by `safeMkdir` into a
no-op (second conjunct) rather than an error. -/
theorem c8_mirrordirs_idempotent (src : FsTree) (rmt : List String) (W W1 : World)
    (h : recursiveCopyDir src rmt W = (W1, none)) :
    recursiveCopyDir src rmt W1 = (W1, none)
    ∧ ∀ p, parentOk W1 p → p ∈ W1.dirs → safeMkdir W1 p = .ok W1 := by
  rw [recursiveCopyDir] at h
  cases hsm : safeMkdir W rmt with
  | error e => rw [hsm] at h; simp at h
  | ok Wa =>
    rw [hsm] at h
    have h2 : mkdirAll Wa ((recursiveGetDirsC src).map (fun d => rmt ++ d)) = (W1, none) := h
    obtain ⟨⟨hsub0, hf0⟩, hpar0, hex0⟩ := safeMkdir_ok_facts W Wa rmt hsm
    obtain ⟨⟨hsub, hf⟩, hall⟩ := mkdirAll_ok_facts _ Wa W1 h2
    constructor
    · rw [recursiveCopyDir]
      have hpar1 : parentOk W1 rmt := by
        rw [parentOk] at hpar0 ⊢
        rcases hpar0 with hh | hh
        · exact Or.inl hh
        · exact Or.inr (hsub hh)
      have hex1 : rmt ∈ W1.dirs ∨ rmt ∈ W1.files.map Prod.fst := by
        rcases hex0 with hh | hh
        · exact Or.inl (hsub hh)
        · right; rw [hf]; exact hh
      rw [safeMkdir_of_exists W1 rmt hpar1 hex1]
      exact mkdirAll_of_exists _ W1 hall
    · intro p hpar hp
      exact safeMkdir_of_exists W1 p hpar (Or.inl hp)

/-- Witness for C8 at a one-subdirectory source tree and a fresh destination. -/
theorem c8_mirrordirs_idempotent_witness :
    recursiveCopyDir (.dir (.cons "sub" (.dir .nil) .nil)) ["out"] ⟨[], []⟩
      = (⟨[["out", "sub"], ["out"]], []⟩, none)
    ∧ recursiveCopyDir (.dir (.cons "sub" (.dir .nil) .nil)) ["out"]
        ⟨[["out", "sub"], ["out"]], []⟩
      = (⟨[["out", "sub"], ["out"]], []⟩, none) :=
  ⟨by decide,
    (c8_mirrordirs_idempotent (.dir (.cons "sub" (.dir .nil) .nil)) ["out"]
      ⟨[], []⟩ ⟨[["out", "sub"], ["out"]], []⟩ (by decide)).1⟩

/-! ### Claim C2 -/

theorem copyStep_files (srcTree : FsTree) (flags : Flags) (W W1 : World)
    (h : copyStep srcTree flags W = (W1, none)) : W1.files = W.files := by
  rw [copyStep] at h
  by_cases hid : flags.ID ≠ ""
  · rw [if_pos hid, recursiveCopyDir] at h
    cases hsm : safeMkdir W (pathComponents flags.OD) with
    | error e => rw [hsm] at h; simp at h
    | ok Wa =>
      rw [hsm] at h
      have h2 : mkdirAll Wa ((recursiveGetDirsC srcTree).map
          (fun d => pathComponents flags.OD ++ d)) = (W1, none) := h
      exact (mkdirAll_ok_facts _ Wa W1 h2).1.2.trans (safeMkdir_ok_facts W Wa _ hsm).1.2
  · rw [if_neg hid] at h
    injection h with h1 h2
    subst h1
    rfl

/-- C2: the pipeline is staged — all loads, then all renders, then all saves,
aborting on the first error. In particular, whenever the directory-mirroring
step succeeds, the environment snapshot is built, all template files load,
and rendering fails on some file, `Run` returns exactly that template error
and the filesystem holds no new file: the files are unchanged from the
initial state (only directories may have been created by the mirroring
step). Proved for every template engine `render`. -/
theorem c2_run_render_failure (render : RenderFn) (srcTree : FsTree)
    (environ : List String) (flags : Flags) (W W1 : World)
    (tx : TemplateContext) (loaded : List TemplateFile) (msg : String)
    (hcopy : copyStep srcTree flags W = (W1, none))
    (htx : NewTemplateContext environ = some tx)
    (hload : loadAll W1 (buildTemplateFiles srcTree flags) = .ok loaded)
    (hrender : renderAll render tx loaded = .error msg) :
    Run render srcTree environ flags W = (W1, some (.templateErr msg))
    ∧ W1.files = W.files := by
  refine ⟨?_, copyStep_files srcTree flags W W1 hcopy⟩
  rw [Run, hcopy]
  show (match NewTemplateContext environ with
        | none => (W1, some RunErr.panicked)
        | some tx => runPhases render tx (buildTemplateFiles srcTree flags) W1)
      = (W1, some (RunErr.templateErr msg))
  rw [htx]
  show runPhases render tx (buildTemplateFiles srcTree flags) W1
      = (W1, some (RunErr.templateErr msg))
  rw [runPhases, hload]
  show (match renderAll render tx loaded with
        | .error m => (W1, some (RunErr.templateErr m))
        | .ok rendered => saveAll W1 rendered)
      = (W1, some (RunErr.templateErr msg))
  rw [hrender]

/-- Witness for C2: a single-file run whose engine always fails; the run
returns the template error and writes nothing. -/
theorem c2_run_render_failure_witness :
    (copyStep .file ⟨"in", "out", "", ""⟩ ⟨[], [(["in"], "T")]⟩
        = (⟨[], [(["in"], "T")]⟩, none)
     ∧ NewTemplateContext [] = some ⟨[]⟩
     ∧ loadAll ⟨[], [(["in"], "T")]⟩ (buildTemplateFiles .file ⟨"in", "out", "", ""⟩)
        = .ok [⟨["in"], "T", ["out"], ""⟩]
     ∧ renderAll (fun _ _ _ => .error "boom") ⟨[]⟩ [⟨["in"], "T", ["out"], ""⟩]
        = .error "boom")
    ∧ (Run (fun _ _ _ => .error "boom") .file [] ⟨"in", "out", "", ""⟩ ⟨[], [(["in"], "T")]⟩
        = (⟨[], [(["in"], "T")]⟩, some (.templateErr "boom"))
       ∧ (⟨[], [(["in"], "T")]⟩ : World).files = (⟨[], [(["in"], "T")]⟩ : World).files) :=
  ⟨⟨rfl, rfl, rfl, rfl⟩,
    c2_run_render_failure (fun _ _ _ => .error "boom") .file [] ⟨"in", "out", "", ""⟩
      ⟨[], [(["in"], "T")]⟩ ⟨[], [(["in"], "T")]⟩ ⟨[]⟩ [⟨["in"], "T", ["out"], ""⟩] "boom"
      rfl rfl rfl rfl⟩

/-! ### Lemmas about the directory traversal -/

theorem entDirsC_ne_nil : ∀ es : FsEntries, [] ∉ entDirsC es
| .nil => by simp [entDirsC]
| .cons n .file rest => by
  simp only [entDirsC]
  exact entDirsC_ne_nil rest
| .cons n (.dir es2) rest => by
  intro hmem
  simp only [entDirsC, List.mem_append, List.mem_cons, List.mem_map] at hmem
  rcases hmem with (h | ⟨p, hp, hcons⟩) | h
  · cases h
  · cases hcons
  · exact entDirsC_ne_nil rest h

theorem entDirsC_head : ∀ (es : FsEntries) (c : String) (cs : List String),
    (c :: cs) ∈ entDirsC es → c ∈ entNames es
| .nil => by intro c cs h; simp [entDirsC] at h
| .cons n .file rest => by
  intro c cs h
  simp only [entDirsC] at h
  simp only [entNames]
  exact List.mem_cons_of_mem n (entDirsC_head rest c cs h)
| .cons n (.dir es2) rest => by
  intro c cs h
  simp only [entDirsC, List.mem_append, List.mem_cons, List.mem_map] at h
  simp only [entNames]
  rcases h with (h | ⟨p, hp, hcons⟩) | h
  · simp only [List.cons.injEq] at h
    exact List.mem_cons.mpr (Or.inl h.1)
  · simp only [List.cons.injEq] at hcons
    exact List.mem_cons.mpr (Or.inl hcons.1.symm)
  · exact List.mem_cons_of_mem n (entDirsC_head rest c cs h)

theorem joinComps_cons (n : String) (p : List String) (hp : p ≠ []) :
    joinComps (n :: p) = n ++ "/" ++ joinComps p := by
  cases p with
  | nil => exact absurd rfl hp
  | cons q qs => rfl

theorem entDirs_eq_map : ∀ es : FsEntries, entDirs es = (entDirsC es).map joinComps
| .nil => rfl
| .cons n .file rest => by
  simp only [entDirs, entDirsC]
  exact entDirs_eq_map rest
| .cons n (.dir es2) rest => by
  simp only [entDirs, entDirsC, List.map_append, List.map_cons, List.map_map]
  rw [entDirs_eq_map es2, entDirs_eq_map rest, List.map_map]
  congr 1
  congr 1
  apply List.map_congr_left
  intro p hp
  show n ++ "/" ++ joinComps p = joinComps (n :: p)
  exact (joinComps_cons n p (fun hh => entDirsC_ne_nil es2 (hh ▸ hp))).symm

theorem entDirsC_comps : ∀ es : FsEntries, entWF es = true →
    ∀ p ∈ entDirsC es, ∀ x ∈ p, x ≠ "" ∧ '/' ∉ x.data
| .nil => by intro _ p hp; simp [entDirsC] at hp
| .cons n .file rest => by
  intro h p hp x hx
  simp only [entWF, Bool.and_eq_true, decide_eq_true_eq, bne_iff_ne, ne_eq] at h
  simp only [entDirsC] at hp
  exact entDirsC_comps rest (by simp [entWF, h.2]) p hp x hx
| .cons n (.dir es2) rest => by
  intro h p hp x hx
  simp only [entWF, Bool.and_eq_true, decide_eq_true_eq, bne_iff_ne, ne_eq] at h
  obtain ⟨⟨⟨⟨hne, hslash⟩, hnotin⟩, htw⟩, hew⟩ := h
  simp only [entDirsC, List.mem_append, List.mem_cons, List.mem_map] at hp
  rcases hp with (hp | ⟨q, hq, hcons⟩) | hp
  · subst hp
    simp only [List.mem_singleton] at hx
    subst hx
    exact ⟨hne, hslash⟩
  · subst hcons
    rcases List.mem_cons.mp hx with rfl | hx2
    · exact ⟨hne, hslash⟩
    · exact entDirsC_comps es2 htw q hq x hx2
  · exact entDirsC_comps rest hew p hp x hx

theorem entDirsC_mem : ∀ es : FsEntries, entWF es = true →
    ∀ (c : String) (cs : List String),
      (c :: cs) ∈ entDirsC es ↔ entIsDirAt es c cs = true
| .nil, h, c, cs => by
  simp [entDirsC, entIsDirAt]
| .cons n .file rest, h, c, cs => by
  simp only [entWF, Bool.and_eq_true, decide_eq_true_eq, bne_iff_ne, ne_eq] at h
  obtain ⟨⟨⟨⟨hne, hslash⟩, hnotin⟩, htw⟩, hew⟩ := h
  have hewb : entWF rest = true := hew
  show (c :: cs) ∈ entDirsC rest
      ↔ (if n = c then isDirAt .file cs else entIsDirAt rest c cs) = true
  by_cases hc : n = c
  · rw [if_pos hc]
    constructor
    · intro hmem
      exact absurd (hc ▸ entDirsC_head rest c cs hmem) hnotin
    · intro hdir
      cases cs <;> simp [isDirAt] at hdir
  · rw [if_neg hc]
    exact entDirsC_mem rest hewb c cs
| .cons n (.dir es2) rest, h, c, cs => by
  simp only [entWF, Bool.and_eq_true, decide_eq_true_eq, bne_iff_ne, ne_eq] at h
  obtain ⟨⟨⟨⟨hne, hslash⟩, hnotin⟩, htw⟩, hew⟩ := h
  have htwb : entWF es2 = true := htw
  have hewb : entWF rest = true := hew
  show (c :: cs) ∈ ([n] :: (entDirsC es2).map (fun p => n :: p)) ++ entDirsC rest
      ↔ (if n = c then isDirAt (.dir es2) cs else entIsDirAt rest c cs) = true
  by_cases hc : n = c
  · subst hc
    rw [if_pos rfl]
    constructor
    · intro hmem
      simp only [List.cons_append, List.mem_cons, List.mem_append, List.mem_map] at hmem
      rcases hmem with hm | (⟨p, hp, hcons⟩ | hm)
      · simp only [List.cons.injEq] at hm
        rw [hm.2]
        rfl
      · simp only [List.cons.injEq] at hcons
        obtain ⟨-, hpc⟩ := hcons
        subst hpc
        cases p with
        | nil => exact absurd hp (entDirsC_ne_nil es2)
        | cons c2 cs2 =>
          show entIsDirAt es2 c2 cs2 = true
          exact (entDirsC_mem es2 htwb c2 cs2).mp hp
      · exact absurd (entDirsC_head rest n cs hm) hnotin
    · intro hdir
      cases cs with
      | nil => exact List.mem_append_left _ (List.mem_cons_self _ _)
      | cons c2 cs2 =>
        have hm2 : (c2 :: cs2) ∈ entDirsC es2 := (entDirsC_mem es2 htwb c2 cs2).mpr hdir
        exact List.mem_append_left _ (List.mem_cons_of_mem _ (List.mem_map_of_mem _ hm2))
  · rw [if_neg hc]
    constructor
    · intro hmem
      simp only [List.cons_append, List.mem_cons, List.mem_append, List.mem_map] at hmem
      rcases hmem with hm | (⟨p, hp, hcons⟩ | hm)
      · simp only [List.cons.injEq] at hm
        exact absurd hm.1.symm hc
      · simp only [List.cons.injEq] at hcons
        exact absurd hcons.1 hc
      · exact (entDirsC_mem rest hewb c cs).mp hm
    · intro hdir
      exact List.mem_append_right _ ((entDirsC_mem rest hewb c cs).mpr hdir)

theorem dirsC_mem (t : FsTree) (h : treeWF t = true) (cs : List String) :
    cs ∈ recursiveGetDirsC t ↔ (cs ≠ [] ∧ isDirAt t cs = true) := by
  cases t with
  | file =>
    constructor
    · intro hmem; simp [recursiveGetDirsC] at hmem
    · intro hh
      obtain ⟨hne, hdir⟩ := hh
      cases cs <;> simp [isDirAt] at hdir
  | dir es =>
    show cs ∈ entDirsC es ↔ _
    cases cs with
    | nil =>
      constructor
      · intro hmem; exact absurd hmem (entDirsC_ne_nil es)
      · intro hh; exact absurd rfl hh.1
    | cons c cs2 =>
      rw [entDirsC_mem es h c cs2]
      show entIsDirAt es c cs2 = true ↔ _
      constructor
      · intro hh; exact ⟨by simp, hh⟩
      · intro hh; exact hh.2

theorem entDirsC_nodup : ∀ es : FsEntries, entWF es = true → (entDirsC es).Nodup
| .nil, h => by simp [entDirsC]
| .cons n .file rest, h => by
  simp only [entWF, Bool.and_eq_true, decide_eq_true_eq, bne_iff_ne, ne_eq] at h
  show (entDirsC rest).Nodup
  exact entDirsC_nodup rest h.2
| .cons n (.dir es2) rest, h => by
  simp only [entWF, Bool.and_eq_true, decide_eq_true_eq, bne_iff_ne, ne_eq] at h
  obtain ⟨⟨⟨⟨hne, hslash⟩, hnotin⟩, htw⟩, hew⟩ := h
  have htwb : entWF es2 = true := htw
  show (([n] :: (entDirsC es2).map (fun p => n :: p)) ++ entDirsC rest).Nodup
  rw [List.nodup_append]
  refine ⟨?_, entDirsC_nodup rest hew, ?_⟩
  · rw [List.nodup_cons]
    constructor
    · intro hmem
      rw [List.mem_map] at hmem
      obtain ⟨p, hp, hcons⟩ := hmem
      simp only [List.cons.injEq] at hcons
      exact entDirsC_ne_nil es2 (hcons.2 ▸ hp)
    · exact (entDirsC_nodup es2 htwb).map (fun a b hpq => by injection hpq)
  · rw [List.disjoint_left]
    intro a ha hamem
    have hhead : ∃ t, a = n :: t := by
      rcases List.mem_cons.mp ha with rfl | ha2
      · exact ⟨[], rfl⟩
      · rw [List.mem_map] at ha2
        obtain ⟨p, _, hc⟩ := ha2
        exact ⟨p, hc.symm⟩
    obtain ⟨t, rfl⟩ := hhead
    exact hnotin (entDirsC_head rest n t hamem)

theorem entDirsC_pairwise : ∀ es : FsEntries, entWF es = true →
    (entDirsC es).Pairwise (fun a b => ¬(b <+: a ∧ b ≠ a))
| .nil, h => by simp [entDirsC]
| .cons n .file rest, h => by
  simp only [entWF, Bool.and_eq_true, decide_eq_true_eq, bne_iff_ne, ne_eq] at h
  show (entDirsC rest).Pairwise _
  exact entDirsC_pairwise rest h.2
| .cons n (.dir es2) rest, h => by
  simp only [entWF, Bool.and_eq_true, decide_eq_true_eq, bne_iff_ne, ne_eq] at h
  obtain ⟨⟨⟨⟨hne, hslash⟩, hnotin⟩, htw⟩, hew⟩ := h
  have htwb : entWF es2 = true := htw
  show (([n] :: (entDirsC es2).map (fun p => n :: p)) ++ entDirsC rest).Pairwise _
  rw [List.pairwise_append]
  refine ⟨?_, entDirsC_pairwise rest hew, ?_⟩
  · rw [List.pairwise_cons]
    constructor
    · intro b hb hcontra
      obtain ⟨hpre, hneq⟩ := hcontra
      rw [List.mem_map] at hb
      obtain ⟨p, hp, rfl⟩ := hb
      rw [List.cons_prefix_cons] at hpre
      obtain ⟨u, hu⟩ := hpre.2
      have hpnil : p = [] := (List.append_eq_nil.mp hu).1
      exact hneq (by rw [hpnil])
    · rw [List.pairwise_map]
      refine (entDirsC_pairwise es2 htwb).imp ?_
      intro a b hab hcontra
      obtain ⟨hpre, hneq⟩ := hcontra
      rw [List.cons_prefix_cons] at hpre
      exact hab ⟨hpre.2, fun hh => hneq (by rw [hh])⟩
  · intro a ha b hb hcontra
    obtain ⟨hpre, hneq⟩ := hcontra
    cases b with
    | nil => exact entDirsC_ne_nil rest hb
    | cons b0 tb =>
      have hb0 : b0 ∈ entNames rest := entDirsC_head rest b0 tb hb
      have hhead : ∃ t, a = n :: t := by
        rcases List.mem_cons.mp ha with rfl | ha2
        · exact ⟨[], rfl⟩
        · rw [List.mem_map] at ha2
          obtain ⟨p, _, hc⟩ := ha2
          exact ⟨p, hc.symm⟩
      obtain ⟨t, rfl⟩ := hhead
      rw [List.cons_prefix_cons] at hpre
      exact hnotin (hpre.1 ▸ hb0)

theorem slashfree_decomp : ∀ u : List Char, '/' ∉ u → ∀ v : List Char, '/' ∉ v →
    ∀ p q : List Char, u ++ '/' :: p = v ++ '/' :: q → u = v ∧ p = q := by
  intro u
  induction u with
  | nil =>
    intro _ v hv p q h
    cases v with
    | nil => simpa using h
    | cons c vt =>
      simp only [List.nil_append, List.cons_append, List.cons.injEq] at h
      exact absurd (by rw [← h.1]; exact List.mem_cons_self _ _) hv
  | cons c ut ih =>
    intro hu v hv p q h
    cases v with
    | nil =>
      simp only [List.cons_append, List.nil_append, List.cons.injEq] at h
      exact absurd (by rw [h.1]; exact List.mem_cons_self _ _) hu
    | cons d vt =>
      simp only [List.cons_append, List.cons.injEq] at h
      have hu2 : '/' ∉ ut := fun hh => hu (List.mem_cons_of_mem c hh)
      have hv2 : '/' ∉ vt := fun hh => hv (List.mem_cons_of_mem d hh)
      obtain ⟨h1, h2⟩ := ih hu2 vt hv2 p q h.2
      exact ⟨by rw [h.1, h1], h2⟩

theorem joinComps_data_cons (n : String) (p : List String) (hp : p ≠ []) :
    (joinComps (n :: p)).data = n.data ++ '/' :: (joinComps p).data := by
  cases p with
  | nil => exact absurd rfl hp
  | cons q qs =>
    show (n ++ "/" ++ joinComps (q :: qs)).data = _
    rw [String.data_append, String.data_append, List.append_assoc]
    rfl

theorem joinComps_inj : ∀ a : List String, a ≠ [] → (∀ x ∈ a, '/' ∉ x.data) →
    ∀ b : List String, b ≠ [] → (∀ x ∈ b, '/' ∉ x.data) →
    joinComps a = joinComps b → a = b
| [], ha, _, _, _, _, _ => absurd rfl ha
| x :: xs, _, hsa, b, hb, hsb, h => by
  cases b with
  | nil => exact absurd rfl hb
  | cons y ys =>
    have hsx : '/' ∉ x.data := hsa x (List.mem_cons_self _ _)
    have hsy : '/' ∉ y.data := hsb y (List.mem_cons_self _ _)
    cases hxs : xs with
    | nil =>
      cases hys : ys with
      | nil =>
        subst hxs; subst hys
        show x :: ([] : List String) = y :: []
        have h2 : x = y := h
        rw [h2]
      | cons y2 ys2 =>
        subst hxs; subst hys
        have h2 := congrArg String.data h
        rw [joinComps_data_cons y (y2 :: ys2) (by simp)] at h2
        have h3 : (joinComps [x]).data = x.data := rfl
        rw [h3] at h2
        exact absurd (by rw [h2]; exact List.mem_append_right _ (List.mem_cons_self _ _)) hsx
    | cons x2 xs2 =>
      cases hys : ys with
      | nil =>
        subst hxs; subst hys
        have h2 := congrArg String.data h
        rw [joinComps_data_cons x (x2 :: xs2) (by simp)] at h2
        have h3 : (joinComps [y]).data = y.data := rfl
        rw [h3] at h2
        exact absurd (by rw [← h2]; exact List.mem_append_right _ (List.mem_cons_self _ _)) hsy
      | cons y2 ys2 =>
        subst hxs; subst hys
        have h2 := congrArg String.data h
        rw [joinComps_data_cons x (x2 :: xs2) (by simp),
            joinComps_data_cons y (y2 :: ys2) (by simp)] at h2
        obtain ⟨hxy, htl⟩ := slashfree_decomp x.data hsx y.data hsy _ _ h2
        have hxy2 : x = y := String.ext hxy
        have htl2 : joinComps (x2 :: xs2) = joinComps (y2 :: ys2) := String.ext htl
        have htail := joinComps_inj (x2 :: xs2) (by simp)
          (fun z hz => hsa z (List.mem_cons_of_mem x hz))
          (y2 :: ys2) (by simp)
          (fun z hz => hsb z (List.mem_cons_of_mem y hz)) htl2
        rw [hxy2, htail]

theorem joinComps_ancestor : ∀ b : List String, b ≠ [] → (∀ x ∈ b, '/' ∉ x.data) →
    ∀ a : List String, a ≠ [] → (∀ x ∈ a, '/' ∉ x.data) →
    ∀ s : String, joinComps a = joinComps b ++ "/" ++ s →
    b <+: a ∧ b ≠ a
| [], hb, _, _, _, _, _, _ => absurd rfl hb
| y :: ys, _, hsb, a, ha, hsa, s, h => by
  cases a with
  | nil => exact absurd rfl ha
  | cons x xs =>
    have hsx : '/' ∉ x.data := hsa x (List.mem_cons_self _ _)
    have hsy : '/' ∉ y.data := hsb y (List.mem_cons_self _ _)
    have hdata := congrArg String.data h
    rw [String.data_append, String.data_append] at hdata
    cases hys : ys with
    | nil =>
      subst hys
      -- joinComps [y] = y
      have hyd : (joinComps [y] : String).data = y.data := rfl
      rw [hyd, List.append_assoc] at hdata
      cases hxs : xs with
      | nil =>
        subst hxs
        have hxd : (joinComps [x] : String).data = x.data := rfl
        rw [hxd] at hdata
        exact absurd (by rw [hdata]; exact List.mem_append_right _ (List.mem_cons_self _ _)) hsx
      | cons x2 xs2 =>
        subst hxs
        rw [joinComps_data_cons x (x2 :: xs2) (by simp)] at hdata
        obtain ⟨hxy, -⟩ := slashfree_decomp x.data hsx y.data hsy _ _ (by simpa using hdata)
        constructor
        · exact ⟨x2 :: xs2, by rw [String.ext hxy]; rfl⟩
        · intro hh
          simp only [List.cons.injEq] at hh
          exact absurd hh.2.symm (by simp)
    | cons y2 ys2 =>
      subst hys
      rw [joinComps_data_cons y (y2 :: ys2) (by simp), List.append_assoc] at hdata
      cases hxs : xs with
      | nil =>
        subst hxs
        have hxd : (joinComps [x] : String).data = x.data := rfl
        rw [hxd] at hdata
        exact absurd (by rw [hdata]; exact List.mem_append_right _ (List.mem_cons_self _ _)) hsx
      | cons x2 xs2 =>
        subst hxs
        rw [joinComps_data_cons x (x2 :: xs2) (by simp)] at hdata
        obtain ⟨hxy, htl⟩ := slashfree_decomp x.data hsx y.data hsy _ _ (by simpa using hdata)
        have htl2 : joinComps (x2 :: xs2) = joinComps (y2 :: ys2) ++ "/" ++ s := by
          apply String.ext
          rw [String.data_append, String.data_append, List.append_assoc]
          exact htl
        have hrec := joinComps_ancestor (y2 :: ys2) (by simp)
          (fun z hz => hsb z (List.mem_cons_of_mem y hz))
          (x2 :: xs2) (by simp)
          (fun z hz => hsa z (List.mem_cons_of_mem x hz)) s htl2
        constructor
        · rw [List.cons_prefix_cons]
          exact ⟨(String.ext hxy).symm, hrec.1⟩
        · intro hh
          simp only [List.cons.injEq] at hh
          exact hrec.2 (by rw [hh.2.1, hh.2.2])

theorem recursiveGetDirs_eq_map (t : FsTree) :
    recursiveGetDirs t = (recursiveGetDirsC t).map joinComps := by
  cases t with
  | file => rfl
  | dir es => exact entDirs_eq_map es

/-! ### Claim C9 -/

/-- C9: over every well-formed readable tree (distinct, nonempty,
separator-free entry names per directory — what a real filesystem
guarantees), `recursiveGetDirs` enumerates exactly the subdirectory paths:
without duplicates; a string is listed iff it is the `/`-joined component
path of a directory of the tree; and no element is a strict `/`-ancestor of
an earlier element, i.e. every parent directory is listed before any of its
children (depth-first order). -/
theorem c9_listdirs_enumeration (t : FsTree) (h : treeWF t = true) :
    (recursiveGetDirs t).Nodup
    ∧ (∀ p, p ∈ recursiveGetDirs t ↔
        ∃ cs, cs ≠ [] ∧ isDirAt t cs = true ∧ p = joinComps cs)
    ∧ (recursiveGetDirs t).Pairwise
        (fun earlier later => ∀ s : String, earlier ≠ later ++ "/" ++ s) := by
  have hbridge := recursiveGetDirs_eq_map t
  have hcomps : ∀ p ∈ recursiveGetDirsC t, p ≠ [] ∧ ∀ x ∈ p, '/' ∉ x.data := by
    intro p hp
    cases t with
    | file => simp [recursiveGetDirsC] at hp
    | dir es =>
      exact ⟨fun hh => entDirsC_ne_nil es (hh ▸ hp),
             fun x hx => (entDirsC_comps es h p hp x hx).2⟩
  have hnodupC : (recursiveGetDirsC t).Nodup := by
    cases t with
    | file => simp [recursiveGetDirsC]
    | dir es => exact entDirsC_nodup es h
  have hpwC : (recursiveGetDirsC t).Pairwise (fun a b => ¬(b <+: a ∧ b ≠ a)) := by
    cases t with
    | file => simp [recursiveGetDirsC]
    | dir es => exact entDirsC_pairwise es h
  refine ⟨?_, ?_, ?_⟩
  · rw [hbridge]
    apply List.Nodup.map_on ?_ hnodupC
    intro x hx y hy hxy
    exact joinComps_inj x (hcomps x hx).1 (hcomps x hx).2
      y (hcomps y hy).1 (hcomps y hy).2 hxy
  · intro p
    rw [hbridge, List.mem_map]
    constructor
    · intro hh
      obtain ⟨cs, hcs, hjoin⟩ := hh
      have hm := (dirsC_mem t h cs).mp hcs
      exact ⟨cs, hm.1, hm.2, hjoin.symm⟩
    · intro hh
      obtain ⟨cs, hne, hdir, hjoin⟩ := hh
      exact ⟨cs, (dirsC_mem t h cs).mpr ⟨hne, hdir⟩, hjoin.symm⟩
  · rw [hbridge, List.pairwise_map]
    refine hpwC.imp_of_mem ?_
    intro a b ha hb hab s heq
    exact hab (joinComps_ancestor b (hcomps b hb).1 (hcomps b hb).2
      a (hcomps a ha).1 (hcomps a ha).2 s heq)

/-- Witness for C9 at a three-directory tree with a file among the entries. -/
theorem c9_listdirs_enumeration_witness :
    treeWF (.dir (.cons "a" (.dir (.cons "b" (.dir .nil) .nil))
        (.cons "c" .file (.cons "d" (.dir .nil) .nil)))) = true
    ∧ ((recursiveGetDirs (.dir (.cons "a" (.dir (.cons "b" (.dir .nil) .nil))
          (.cons "c" .file (.cons "d" (.dir .nil) .nil))))).Nodup
       ∧ (∀ p, p ∈ recursiveGetDirs (.dir (.cons "a" (.dir (.cons "b" (.dir .nil) .nil))
            (.cons "c" .file (.cons "d" (.dir .nil) .nil)))) ↔
          ∃ cs, cs ≠ []
            ∧ isDirAt (.dir (.cons "a" (.dir (.cons "b" (.dir .nil) .nil))
                (.cons "c" .file (.cons "d" (.dir .nil) .nil)))) cs = true
            ∧ p = joinComps cs)
       ∧ (recursiveGetDirs (.dir (.cons "a" (.dir (.cons "b" (.dir .nil) .nil))
            (.cons "c" .file (.cons "d" (.dir .nil) .nil))))).Pairwise
          (fun earlier later => ∀ s : String, earlier ≠ later ++ "/" ++ s)) :=
  ⟨by decide,
    c9_listdirs_enumeration (.dir (.cons "a" (.dir (.cons "b" (.dir .nil) .nil))
      (.cons "c" .file (.cons "d" (.dir .nil) .nil)))) (by decide)⟩
